import Mathlib

/-!
Shallow embedding of the floor-plan generation pipeline of
`src/floor_plan/floor_plan_generator.py`.

Coordinates are modelled as exact rationals (every IEEE float value is a
rational, and the script's arithmetic is translated verbatim into exact
arithmetic).  The numpy / shapely / skimage primitives the script calls are
modelled by their documented semantics; where the spec treats a geometric
primitive as an abstract external capability (zero-buffer repair, convex
hull, contour tracing), the model is flagged in that definition's
doc comment.
-/

namespace FloorPlan

/-- A 3D point: one row of the `points` array. -/
structure P3 where
  x : ℚ
  y : ℚ
  z : ℚ
deriving DecidableEq, Repr

/-- Per-axis `np.min` over a nonempty point list, seeded with a first
element (the axis is selected by the accessor `f`). -/
def minOver (f : P3 → ℚ) (p : P3) (t : List P3) : ℚ :=
  t.foldl (fun m q => min m (f q)) (f p)

/-- Per-axis `np.max` over a nonempty point list. -/
def maxOver (f : P3 → ℚ) (p : P3) (t : List P3) : ℚ :=
  t.foldl (fun m q => max m (f q)) (f p)

/-- Per-axis minimum of a point list, with junk value `0` on the empty
list (where numpy raises instead of returning a number). -/
def axisMin (f : P3 → ℚ) : List P3 → ℚ
  | [] => 0
  | p :: t => minOver f p t

/-- Per-axis maximum of a point list, with junk value `0` on the empty
list (`z_max = z_values.max()`). -/
def axisMax (f : P3 → ℚ) : List P3 → ℚ
  | [] => 0
  | p :: t => maxOver f p t

/-- The fatal error on an empty input cloud (`EmptyInputError` in the
spec; in the script the reduction `points.min(axis=0)` over a zero-size
array raises, aborting the run before any stage output exists). -/
inductive PipelineError where
  | emptyInputError
deriving DecidableEq, Repr

/-- STEP 1 (CoordinateNormalizer), lines 28–36 of the script:
`points_normalized = points - np.array([x_min_orig, y_min_orig, z_min_orig])`.
Fails on an empty cloud; otherwise returns the shifted points together
with the recorded `(x_min_orig, y_min_orig, z_min_orig)` offset. -/
def normalize (ps : List P3) : Except PipelineError (List P3 × (ℚ × ℚ × ℚ)) :=
  match ps with
  | [] => .error .emptyInputError
  | p :: t =>
    let xm := minOver P3.x p t
    let ym := minOver P3.y p t
    let zm := minOver P3.z p t
    .ok ((p :: t).map (fun q => ⟨q.x - xm, q.y - ym, q.z - zm⟩), (xm, ym, zm))

/-- Insert into an ascending list (helper for the sort underlying
`np.percentile`). -/
def insertSorted (a : ℚ) : List ℚ → List ℚ
  | [] => [a]
  | b :: t => if a ≤ b then a :: b :: t else b :: insertSorted a t

/-- Ascending insertion sort of a rational list. -/
def sortQ (l : List ℚ) : List ℚ := l.foldr insertSorted []

/-- `np.percentile(l, q)` with numpy's default linear interpolation:
with `s` the ascending sort of `l`, `n = len(l)` and `h = q/100 * (n-1)`,
the result is `s[⌊h⌋] + (h - ⌊h⌋) * (s[⌊h⌋+1] - s[⌊h⌋])` (upper index
clamped).  On the empty list numpy raises; the model returns a junk
value there, and is never applied to an empty list by the pipeline. -/
def percentile (l : List ℚ) (q : ℚ) : ℚ :=
  let s := sortQ l
  let n := s.length
  let h : ℚ := q / 100 * ((n : ℚ) - 1)
  let i : ℕ := (⌊h⌋).toNat
  let lo := s.getD i 0
  let hi := s.getD (i + 1) lo
  lo + (h - (⌊h⌋ : ℚ)) * (hi - lo)

/-- `np.percentile(points[:, 2], q) + 0.05` — the floor height threshold
(the margin `0.05` is `1/20`). -/
def floorThreshold (pts : List P3) (q : ℚ) : ℚ :=
  percentile (pts.map P3.z) q + 1/20

/-- `points[points[:, 2] < floor_threshold]` — the floor point
selection at percentile `q` (the script uses `q = 2`, and `q = 5` in the
convex-hull fallback). -/
def floorPoints (pts : List P3) (q : ℚ) : List P3 :=
  pts.filter (fun p => decide (p.z < floorThreshold pts q))

/-- A 2×2 real matrix `[[a, b], [c, d]]`; its columns `(a, c)` and
`(b, d)` are the two eigenvectors in the script's PCA step. -/
structure Mat2 where
  a : ℚ
  b : ℚ
  c : ℚ
  d : ℚ
deriving DecidableEq, Repr

/-- `np.linalg.det` of a 2×2 matrix. -/
def Mat2.det (m : Mat2) : ℚ := m.a * m.d - m.b * m.c

/-- Matrix transpose. -/
def Mat2.transpose (m : Mat2) : Mat2 := ⟨m.a, m.c, m.b, m.d⟩

/-- Matrix product. -/
def Mat2.mul (m n : Mat2) : Mat2 :=
  ⟨m.a * n.a + m.b * n.c, m.a * n.b + m.b * n.d,
   m.c * n.a + m.d * n.c, m.c * n.b + m.d * n.d⟩

/-- The identity matrix. -/
def Mat2.one : Mat2 := ⟨1, 0, 0, 1⟩

/-- `eigenvectors[:, 1] = -eigenvectors[:, 1]`: negate the second column. -/
def negSecondCol (m : Mat2) : Mat2 := ⟨m.a, -m.b, m.c, -m.d⟩

/-- Lines 53–55: `if np.linalg.det(eigenvectors) < 0:
eigenvectors[:, 1] = -eigenvectors[:, 1]` — the right-handedness fix. -/
def fixRightHanded (m : Mat2) : Mat2 :=
  if m.det < 0 then negSecondCol m else m

/-- Line 58: `rotation_matrix_2d = eigenvectors.T` (after the
handedness fix). -/
def rotationMatrix2d (m : Mat2) : Mat2 := (fixRightHanded m).transpose

/-- The eigenvector matrix of a symmetric 2×2 covariance, as returned by
`np.linalg.eig` on a non-degenerate input, has unit-norm mutually
orthogonal columns; this predicate captures that input condition. -/
def orthonormalCols (m : Mat2) : Prop :=
  m.a ^ 2 + m.c ^ 2 = 1 ∧ m.b ^ 2 + m.d ^ 2 = 1 ∧ m.a * m.b + m.c * m.d = 0

/-- Lines 61–64: apply the XY rotation about the near-floor centroid
`(cx, cy)` — `(points_xy - mean_xy) @ rotation_matrix_2d.T` — leaving Z
untouched.  A row vector times `R.T` is `R` applied to the column
vector. -/
def rotateAbout (R : Mat2) (cx cy : ℚ) (p : P3) : P3 :=
  ⟨R.a * (p.x - cx) + R.b * (p.y - cy),
   R.c * (p.x - cx) + R.d * (p.y - cy), p.z⟩

/-- Lines 67–69: `points[:, :2] = points[:, :2] - points[:, :2].min(axis=0)` —
re-subtract the XY minimum after rotation. -/
def renormXY : List P3 → List P3
  | [] => []
  | p :: t =>
    let xm := minOver P3.x p t
    let ym := minOver P3.y p t
    (p :: t).map (fun q => ⟨q.x - xm, q.y - ym, q.z⟩)

/-- STEP 2 (PrincipalAxisAligner): rotate every point about the
near-floor centroid, then renormalize the XY minimum to 0.  The rotation
matrix `R` is the output of the eigen-decomposition step, kept symbolic
because `np.linalg.eig` involves square roots. -/
def alignPoints (R : Mat2) (cx cy : ℚ) (ps : List P3) : List P3 :=
  renormXY (ps.map (rotateAbout R cx cy))

/-- `n_slices = 4`: the number of wall bands. -/
def nSlices : ℕ := 4

/-- The wall-band point-count minimum (`if len(slice_points) < 500:
continue`). -/
def minStratumPoints : ℕ := 500

/-- `slice_thickness = (z_max - z_min) / n_slices`. -/
def sliceThickness (zmin zmax : ℚ) : ℚ := (zmax - zmin) / 4

/-- One pass of the wall loop (lines 128–130): the points with
`z_low ≤ z < z_high` where `z_low = z_min + i * slice_thickness` and
`z_high = z_low + slice_thickness`. -/
def wallBand (pts : List P3) (zmin th : ℚ) (i : ℕ) : List P3 :=
  pts.filter (fun p =>
    decide (zmin + (i : ℚ) * th ≤ p.z ∧ p.z < zmin + ((i : ℚ) + 1) * th))

/-- The wall strata that survive the 500-point minimum check, tagged with
their band index. -/
def wallStrata (pts : List P3) (zmin zmax : ℚ) : List (ℕ × List P3) :=
  (List.range nSlices).filterMap (fun i =>
    let sl := wallBand pts zmin (sliceThickness zmin zmax) i
    if minStratumPoints ≤ sl.length then some (i, sl) else none)

/-- A materialized stratum: `none` tags the floor, `some i` wall band
`i`. -/
structure Stratum where
  tag : Option ℕ
  pts : List P3
deriving DecidableEq, Repr

/-- The strata the script goes on to process: the floor selection
(lines 74–79) is used unconditionally — it has no point-count check —
while a wall band enters only after the 500-point check. -/
def emittedStrata (pts : List P3) (zmin zmax : ℚ) : List Stratum :=
  ⟨none, floorPoints pts 2⟩ ::
    (wallStrata pts zmin zmax).map (fun is => ⟨some is.1, is.2⟩)

/-- `resolution = 0.02` (2 cm per cell). -/
def resolution : ℚ := 1/50

/-- The length of `np.arange(lo, hi, step)` for a positive step:
`⌈(hi - lo) / step⌉` values, all strictly below `hi`. -/
def arangeLen (lo hi step : ℚ) : ℕ :=
  if 0 < step ∧ lo < hi then (⌈(hi - lo) / step⌉).toNat else 0

/-- `np.arange(lo, hi, step)`: `lo, lo + step, …`, strictly below `hi`. -/
def arange (lo hi step : ℚ) : List ℚ :=
  (List.range (arangeLen lo hi step)).map (fun i : ℕ => lo + (i : ℚ) * step)

/-- The histogram bin index of `v` for an ascending edge list (numpy
semantics): half-open bins `[eᵢ, eᵢ₊₁)` with the last bin closed; `none`
when `v` lies below the first or above the last edge, so such a value is
counted in no cell. -/
def binIndexOf (v : ℚ) : List ℚ → Option ℕ
  | e0 :: e1 :: rest =>
    if v < e0 then none
    else if v < e1 then some 0
    else if rest = [] then (if v = e1 then some 0 else none)
    else (binIndexOf v (e1 :: rest)).map (· + 1)
  | _ => none

/-- Cells per axis of the `np.histogram2d` output: one fewer than the
number of bin edges. -/
def gridDims (edges : List ℚ) : ℕ := edges.length - 1

/-- XY projection (`[:, :2]`) of a point list. -/
def xyOf (pts : List P3) : List (ℚ × ℚ) := pts.map (fun p => (p.x, p.y))

/-- `np.min` of a rational list (junk value `0` on the empty list, where
numpy raises instead). -/
def minQ : List ℚ → ℚ
  | [] => 0
  | a :: t => t.foldl min a

/-- `np.max` of a rational list (junk value `0` on the empty list). -/
def maxQ : List ℚ → ℚ
  | [] => 0
  | a :: t => t.foldl max a

/-- Lines 86–89: the X bin edges `x_bins = np.arange(x_min, x_max,
resolution)`, with `x_min, x_max` from the floor band's XY bounding box —
computed once and reused for every wall band. -/
def xEdgesOf (xy : List (ℚ × ℚ)) (res : ℚ) : List ℚ :=
  arange (minQ (xy.map Prod.fst)) (maxQ (xy.map Prod.fst)) res

/-- The Y bin edges `y_bins`, as `xEdgesOf`. -/
def yEdgesOf (xy : List (ℚ × ℚ)) (res : ℚ) : List ℚ :=
  arange (minQ (xy.map Prod.snd)) (maxQ (xy.map Prod.snd)) res

/-- The occupancy-grid dimensions (cells per axis) built over `xy`. -/
def rasterDims (xy : List (ℚ × ℚ)) (res : ℚ) : ℕ × ℕ :=
  (gridDims (xEdgesOf xy res), gridDims (yEdgesOf xy res))

/-- The `np.histogram2d` count of cell `(i, j)` for the given edges. -/
def cellCount (xe ye : List ℚ) (xy : List (ℚ × ℚ)) (i j : ℕ) : ℕ :=
  (xy.filter (fun q =>
    decide (binIndexOf q.1 xe = some i ∧ binIndexOf q.2 ye = some j))).length

/-- `binary = grid.T > 1`: cell `(i, j)` is occupied iff its point count
exceeds `occupancy_minimum = 1`. -/
def occupied (xe ye : List ℚ) (xy : List (ℚ × ℚ)) (i j : ℕ) : Prop :=
  1 < cellCount xe ye xy i j

/-- A 2D vertex. -/
abbrev Pt2 := ℚ × ℚ

/-- A polygon ring: a vertex list with an implicit closing edge back to
the first vertex (shapely normalizes away a duplicated endpoint). -/
abbrev Ring := List Pt2

/-- 2D cross product of two vertices, the shoelace summand. -/
def cross2 (p q : Pt2) : ℚ := p.1 * q.2 - q.1 * p.2

/-- The directed edge list of a ring, wrapping around to the start. -/
def ringEdges (r : Ring) : List (Pt2 × Pt2) :=
  match r with
  | [] => []
  | p :: _ => r.zip (r.drop 1 ++ [p])

/-- The shoelace sum of a ring: twice its signed area. -/
def shoelaceSum (r : Ring) : ℚ :=
  (ringEdges r).foldl (fun s e => s + cross2 e.1 e.2) 0

/-- `poly.area` (shapely/GEOS): the absolute shoelace area of the ring,
computed from the vertex sequence whether or not the ring is simple. -/
def ringArea (r : Ring) : ℚ := |shoelaceSum r| / 2

/-- All index pairs `i < j` below `n`, in lexicographic order. -/
def idxPairs (n : ℕ) : List (ℕ × ℕ) :=
  (List.range n).flatMap (fun i =>
    ((List.range n).filter (fun j => decide (i < j))).map (fun j => (i, j)))

/-- The first pair of positions of a repeated vertex (a self-touch of the
ring), if any. -/
def firstRepeat (r : Ring) : Option (ℕ × ℕ) :=
  (idxPairs r.length).find? (fun ij =>
    decide (r.getD ij.1 (0, 0) = r.getD ij.2 (0, 0)))

/-- Split a ring at positions `i < j` of a repeated vertex into its two
lobes. -/
def splitRing (r : Ring) (i j : ℕ) : Ring × Ring :=
  ((r.drop i).take (j - i), r.drop j ++ r.take i)

/-- Modelled from the spec: the zero-buffer topology repair
`poly.buffer(0)` — an abstract external capability per §9 of the spec,
which "converts a possibly self-intersecting polygon into the nearest
valid simple polygon(s) without materially changing its footprint", and
is idempotent on valid polygons.  A ring without repeated vertices is
already simple and is returned unchanged; a self-touching ring is split
at its first repeated vertex into its two lobes, a lobe of zero area
(a repair to an empty result) being dropped. -/
def buffer0 (r : Ring) : List Ring :=
  match firstRepeat r with
  | none => [r]
  | some ij =>
    let parts := splitRing r ij.1 ij.2
    [parts.1, parts.2].filter (fun s => decide (0 < ringArea s))

/-- `min_polygon_area`: the noise filter bound in `if poly.area > 0.05`. -/
def minPolygonArea : ℚ := 1/20

/-- Map one contour from grid-index space `(row, col)` to world XY
(lines 101–102): `px = contour[:, 1] * resolution + x_min`,
`py = contour[:, 0] * resolution + y_min`. -/
def contourToWorld (res xmin ymin : ℚ) (r : Ring) : Ring :=
  r.map (fun c => (c.2 * res + xmin, c.1 * res + ymin))

/-- Lines 103–109 (and 142–151 for walls): the polygons a stratum
contributes to its region — keep the contours whose raw shoelace area
exceeds `min_polygon_area`, then apply the zero-buffer repair to each
survivor and keep the non-empty results. -/
def validPolygons (contours : List Ring) : List Ring :=
  (contours.filter (fun r => decide (minPolygonArea < ringArea r))).flatMap buffer0

/-- A region: the component polygons of the `unary_union` of a stratum's
surviving polygon list. -/
abbrev Region := List Ring

/-- `unary_union(polys)`, modelled componentwise: the claims checked here
concern component membership and component area, and the union of
overlapping polygons merges components (never producing a smaller
component), while disjoint polygons are kept as separate components. -/
def unionRegion (polys : List Ring) : Region := polys

/-- Insert a vertex into a lexicographically ascending vertex list
(helper for the hull scan). -/
def insertPt (a : Pt2) : List Pt2 → List Pt2
  | [] => [a]
  | b :: t =>
    if a.1 < b.1 ∨ (a.1 = b.1 ∧ a.2 ≤ b.2) then a :: b :: t else b :: insertPt a t

/-- Lexicographic insertion sort of a vertex list. -/
def sortPts (l : List Pt2) : List Pt2 := l.foldr insertPt []

/-- Orientation test: positive iff `o → p → q` is a left turn. -/
def ccw (o p q : Pt2) : ℚ :=
  (p.1 - o.1) * (q.2 - o.2) - (p.2 - o.2) * (q.1 - o.1)

/-- One step of the monotone-chain hull scan: pop while the new vertex
does not make a strict left turn. -/
def hullStep : List Pt2 → Pt2 → List Pt2
  | b :: a :: rest, p =>
    if ccw a b p ≤ 0 then hullStep (a :: rest) p else p :: b :: a :: rest
  | acc, p => p :: acc

/-- One half (lower or upper chain) of the monotone-chain hull. -/
def halfChain (l : List Pt2) : List Pt2 := (l.foldl hullStep []).reverse

/-- Modelled from the spec: `MultiPoint(floor_xy).convex_hull` — the 2D
convex hull, an abstract external capability per §9 of the spec, modelled
by the standard monotone-chain algorithm (lower chain over the sorted
vertices plus upper chain over the reversed order, chain endpoints
deduplicated). -/
def convexHullQ (l : List Pt2) : List Pt2 :=
  let s := sortPts l
  (halfChain s).dropLast ++ (halfChain s.reverse).dropLast

/-- Lines 96–118: the floor Region.  If the filtered polygon list built
from the floor contours is non-empty, the region is its union; otherwise
the script recomputes the floor selection at the looser percentile 5
(same `+ 0.05` margin) and takes the convex hull of that point set.
`floorContours` stands for `measure.find_contours` on the floor's binary
grid (an external library call), already mapped to world coordinates. -/
def floorRegionOf (floorContours : List Ring) (pts : List P3) : Region :=
  let polys := validPolygons floorContours
  if polys = [] then [convexHullQ (xyOf (floorPoints pts 5))]
  else unionRegion polys

/-- Lines 122–154: the wall slices.  Each wall band surviving the
500-point check is rasterized on the floor band's shared bin edges and
contour-extracted; the band is appended to `wall_slices` only when its
filtered polygon list is non-empty.  `contoursOf i` stands for
`measure.find_contours` on band `i`'s binary grid, already mapped to
world coordinates. -/
def wallSlices (pts : List P3) (zmin zmax : ℚ) (contoursOf : ℕ → List Ring) :
    List (ℕ × Region × List P3) :=
  (wallStrata pts zmin zmax).filterMap (fun is =>
    let polys := validPolygons (contoursOf is.1)
    if polys = [] then none else some (is.1, unionRegion polys, is.2))

/-- `poly.bounds` — `(minx, miny, maxx, maxy)` over the region's
vertices.  On an empty geometry shapely has no numeric bounds (an empty
tuple in shapely 1.x, NaNs in 2.x): modelled as `none`. -/
def regionBounds (reg : Region) : Option (ℚ × ℚ × ℚ × ℚ) :=
  match reg.flatten with
  | [] => none
  | v :: vs =>
    some (vs.foldl (fun m q => min m q.1) v.1,
          vs.foldl (fun m q => min m q.2) v.2,
          vs.foldl (fun m q => max m q.1) v.1,
          vs.foldl (fun m q => max m q.2) v.2)

/-- `poly.area` of a region: the sum of its component areas. -/
def regionArea (reg : Region) : ℚ := (reg.map ringArea).sum

/-- Lines 161–166, `measure_polygon`:
`bounds = poly.bounds; width = abs(bounds[2] - bounds[0]);
height = abs(bounds[3] - bounds[1]); area = getattr(poly, "area", 0.0)`.
On an empty region the bounds access yields no numbers, so no
numeric Measurement is produced. -/
def measurePolygon (reg : Region) : Option (ℚ × ℚ × ℚ) :=
  match regionBounds reg with
  | none => none
  | some b => some (|b.2.2.1 - b.1|, |b.2.2.2 - b.2.1|, regionArea reg)

/-! ## Helper lemmas -/

/-- Folding `min` against a shifted accessor shifts the fold result. -/
theorem foldl_min_sub (f : P3 → ℚ) (c : ℚ) :
    ∀ (t : List P3) (a : ℚ),
      t.foldl (fun m q => min m (f q - c)) (a - c)
        = t.foldl (fun m q => min m (f q)) a - c := by
  intro t
  induction t with
  | nil => intro a; rfl
  | cons hd tl ih =>
    intro a
    simp only [List.foldl_cons]
    rw [min_sub_sub_right]
    exact ih _

/-- Subtracting a list's own per-axis minimum from that axis of each
element makes the resulting per-axis minimum 0. -/
theorem axisMin_map_sub (f : P3 → ℚ) (g : P3 → P3) (c : ℚ) (p : P3) (t : List P3)
    (hg : ∀ q, f (g q) = f q - c) (hc : c = minOver f p t) :
    axisMin f ((p :: t).map g) = 0 := by
  simp only [List.map_cons, axisMin, minOver, List.foldl_map, hg]
  rw [foldl_min_sub f c t (f p), hc]
  simp only [minOver]
  exact sub_self _

/-! ## Claims -/

/-- C1: for an empty input point sequence, the pipeline fails with
`EmptyInputError` before producing any stage output; for every non-empty
input the coordinate normalizer does not fail. -/
theorem C1_normalizer_empty_fatal :
    normalize [] = .error .emptyInputError ∧
      ∀ ps : List P3, ps ≠ [] → ∃ out, normalize ps = .ok out := by
  refine ⟨rfl, ?_⟩
  intro ps h
  match ps with
  | p :: t => exact ⟨_, rfl⟩

/-- Witness for C1 at the concrete one-point input `(1, 2, 3)`. -/
theorem C1_normalizer_empty_fatal_witness :
    normalize [] = .error .emptyInputError ∧
      ∃ out, normalize [(⟨1, 2, 3⟩ : P3)] = .ok out :=
  ⟨C1_normalizer_empty_fatal.1,
   C1_normalizer_empty_fatal.2 [⟨1, 2, 3⟩] (List.cons_ne_nil _ _)⟩

/-- C7: after the coordinate normalizer, the minimum over every axis
(x, y and z) of the output point set is exactly 0, and after the
principal-axis aligner the XY minima of the aligned set are again 0. -/
theorem C7_axis_minima_zero :
    (∀ (ps out : List P3) (off : ℚ × ℚ × ℚ), normalize ps = .ok (out, off) →
        axisMin P3.x out = 0 ∧ axisMin P3.y out = 0 ∧ axisMin P3.z out = 0) ∧
    (∀ (R : Mat2) (cx cy : ℚ) (ps : List P3), ps ≠ [] →
        axisMin P3.x (alignPoints R cx cy ps) = 0 ∧
        axisMin P3.y (alignPoints R cx cy ps) = 0) := by
  constructor
  · intro ps out off h
    match ps with
    | [] => exact absurd h (by simp [normalize])
    | p :: t =>
      simp only [normalize, Except.ok.injEq, Prod.mk.injEq] at h
      obtain ⟨hout, -⟩ := h
      subst hout
      exact ⟨axisMin_map_sub P3.x _ _ p t (fun q => rfl) rfl,
             axisMin_map_sub P3.y _ _ p t (fun q => rfl) rfl,
             axisMin_map_sub P3.z _ _ p t (fun q => rfl) rfl⟩
  · intro R cx cy ps h
    match hm : ps.map (rotateAbout R cx cy) with
    | [] => exact absurd (List.map_eq_nil_iff.mp hm) h
    | r :: t =>
      simp only [alignPoints, hm, renormXY]
      exact ⟨axisMin_map_sub P3.x _ _ r t (fun q => rfl) rfl,
             axisMin_map_sub P3.y _ _ r t (fun q => rfl) rfl⟩

/-- Witness for C7 at the concrete one-point input `(1, 2, 3)` and the
identity rotation. -/
theorem C7_axis_minima_zero_witness :
    (axisMin P3.x [(⟨0, 0, 0⟩ : P3)] = 0 ∧ axisMin P3.y [(⟨0, 0, 0⟩ : P3)] = 0 ∧
      axisMin P3.z [(⟨0, 0, 0⟩ : P3)] = 0) ∧
    (axisMin P3.x (alignPoints Mat2.one 0 0 [⟨1, 2, 3⟩]) = 0 ∧
      axisMin P3.y (alignPoints Mat2.one 0 0 [⟨1, 2, 3⟩]) = 0) :=
  ⟨C7_axis_minima_zero.1 [⟨1, 2, 3⟩] [⟨0, 0, 0⟩] (1, 2, 3)
      (by norm_num [normalize, minOver]),
   C7_axis_minima_zero.2 Mat2.one 0 0 [⟨1, 2, 3⟩] (List.cons_ne_nil _ _)⟩

/-- C8: for every non-degenerate input — the eigenvector matrix `E`
returned for a symmetric non-singular covariance has orthonormal
columns — the 2×2 alignment rotation matrix is orthonormal with
determinant +1, and the right-handedness step negates the second
eigenvector exactly when `det E < 0`. -/
theorem C8_rotation_matrix_special_orthogonal (E : Mat2) (h : orthonormalCols E) :
    (rotationMatrix2d E).mul (rotationMatrix2d E).transpose = Mat2.one ∧
    ((rotationMatrix2d E).transpose).mul (rotationMatrix2d E) = Mat2.one ∧
    (rotationMatrix2d E).det = 1 ∧
    (E.det < 0 → fixRightHanded E = negSecondCol E) ∧
    (0 ≤ E.det → fixRightHanded E = E) := by
  obtain ⟨h1, h2, h3⟩ := h
  have h12 : (E.a ^ 2 + E.c ^ 2) * (E.b ^ 2 + E.d ^ 2) = 1 := by
    rw [h1, h2]; ring
  have hcd2 : E.c ^ 2 + E.d ^ 2 = 1 := by
    linear_combination (E.c * E.d - E.a * E.b) * h3 + (E.a ^ 2 + 1) * h2 +
      (E.b ^ 2 + 1) * h1 - h12
  have hab2 : E.a ^ 2 + E.b ^ 2 = 1 := by linear_combination h1 + h2 - hcd2
  have hsq : (E.a * E.c + E.b * E.d) ^ 2 = 0 := by
    linear_combination E.c ^ 2 * h1 + E.d ^ 2 * h2 + 2 * E.c * E.d * h3 -
      (E.c ^ 2 + E.d ^ 2) * hcd2
  have habd : E.a * E.c + E.b * E.d = 0 := by
    have := sq_eq_zero_iff.mp hsq
    linarith
  have hdet : (E.a * E.d - E.b * E.c - 1) * (E.a * E.d - E.b * E.c + 1) = 0 := by
    linear_combination h12 - (E.a * E.b + E.c * E.d) * h3
  by_cases hneg : E.det < 0
  · have hd : E.a * E.d - E.b * E.c = -1 := by
      rcases mul_eq_zero.mp hdet with hx | hx
      · exfalso
        rw [Mat2.det] at hneg
        rw [sub_eq_zero] at hx
        rw [hx] at hneg
        exact absurd hneg (by norm_num)
      · linarith
    have hfix : fixRightHanded E = negSecondCol E := if_pos hneg
    refine ⟨?_, ?_, ?_, fun _ => hfix, fun hge => absurd hneg (not_lt.mpr hge)⟩
    · simp only [rotationMatrix2d, hfix, negSecondCol, Mat2.transpose, Mat2.mul,
        Mat2.one, Mat2.mk.injEq]
      refine ⟨?_, ?_, ?_, ?_⟩
      · linear_combination h1
      · linear_combination -h3
      · linear_combination -h3
      · linear_combination h2
    · simp only [rotationMatrix2d, hfix, negSecondCol, Mat2.transpose, Mat2.mul,
        Mat2.one, Mat2.mk.injEq]
      refine ⟨?_, ?_, ?_, ?_⟩
      · linear_combination hab2
      · linear_combination habd
      · linear_combination habd
      · linear_combination hcd2
    · simp only [rotationMatrix2d, hfix, negSecondCol, Mat2.transpose, Mat2.det]
      linear_combination -hd
  · have hge : 0 ≤ E.det := not_lt.mp hneg
    have hd : E.a * E.d - E.b * E.c = 1 := by
      rcases mul_eq_zero.mp hdet with hx | hx
      · linarith [sub_eq_zero.mp hx]
      · exfalso
        rw [Mat2.det] at hge
        have : E.a * E.d - E.b * E.c = -1 := by linarith
        rw [this] at hge
        exact absurd hge (by norm_num)
    have hfix : fixRightHanded E = E := if_neg hneg
    refine ⟨?_, ?_, ?_, fun hlt => absurd hlt hneg, fun _ => hfix⟩
    · simp only [rotationMatrix2d, hfix, Mat2.transpose, Mat2.mul, Mat2.one,
        Mat2.mk.injEq]
      refine ⟨?_, ?_, ?_, ?_⟩
      · linear_combination h1
      · linear_combination h3
      · linear_combination h3
      · linear_combination h2
    · simp only [rotationMatrix2d, hfix, Mat2.transpose, Mat2.mul, Mat2.one,
        Mat2.mk.injEq]
      refine ⟨?_, ?_, ?_, ?_⟩
      · linear_combination hab2
      · linear_combination habd
      · linear_combination habd
      · linear_combination hcd2
    · simp only [rotationMatrix2d, hfix, Mat2.transpose, Mat2.det]
      linear_combination hd

/-- Witness for C8 at the concrete eigenvector matrix with columns
`(3/5, 4/5)` and `(4/5, -3/5)`, which has negative determinant and so
exercises the handedness fix. -/
theorem C8_rotation_matrix_special_orthogonal_witness :
    (rotationMatrix2d ⟨3/5, 4/5, 4/5, -3/5⟩).mul
        (rotationMatrix2d ⟨3/5, 4/5, 4/5, -3/5⟩).transpose = Mat2.one ∧
    ((rotationMatrix2d ⟨3/5, 4/5, 4/5, -3/5⟩).transpose).mul
        (rotationMatrix2d ⟨3/5, 4/5, 4/5, -3/5⟩) = Mat2.one ∧
    (rotationMatrix2d ⟨3/5, 4/5, 4/5, -3/5⟩).det = 1 ∧
    ((⟨3/5, 4/5, 4/5, -3/5⟩ : Mat2).det < 0 →
      fixRightHanded ⟨3/5, 4/5, 4/5, -3/5⟩ = negSecondCol ⟨3/5, 4/5, 4/5, -3/5⟩) ∧
    (0 ≤ (⟨3/5, 4/5, 4/5, -3/5⟩ : Mat2).det →
      fixRightHanded ⟨3/5, 4/5, 4/5, -3/5⟩ = ⟨3/5, 4/5, 4/5, -3/5⟩) :=
  C8_rotation_matrix_special_orthogonal ⟨3/5, 4/5, 4/5, -3/5⟩
    (by norm_num [orthonormalCols])

/-- C3 counterexample: on the concrete four-point input below the floor
selection holds a single point — far below `min_stratum_points = 500` —
yet the floor stratum is still emitted (the script's floor extraction at
lines 74–79 has no point-count check), refuting the claim that every
stratum below the count is skipped. -/
theorem C3_counterexample :
    (⟨none, floorPoints [⟨0, 0, 0⟩, ⟨1, 1, 1⟩, ⟨2, 2, 2⟩, ⟨3, 3, 3⟩] 2⟩ : Stratum) ∈
        emittedStrata [⟨0, 0, 0⟩, ⟨1, 1, 1⟩, ⟨2, 2, 2⟩, ⟨3, 3, 3⟩] 0 3 ∧
      (floorPoints [(⟨0, 0, 0⟩ : P3), ⟨1, 1, 1⟩, ⟨2, 2, 2⟩, ⟨3, 3, 3⟩] 2).length <
        minStratumPoints := by
  constructor
  · exact List.mem_cons_self _ _
  · exact lt_of_le_of_lt (List.length_filter_le _ _) (by norm_num [minStratumPoints])

/-- C3 (amended): only wall strata are subject to the
`min_stratum_points` filter — a wall band is emitted exactly when its
point count is at least 500, silently skipped otherwise with no error —
while the floor stratum is emitted regardless of its point count. -/
theorem C3_amended_wall_only_count_filter (pts : List P3) (zmin zmax : ℚ) :
    ((⟨none, floorPoints pts 2⟩ : Stratum) ∈ emittedStrata pts zmin zmax) ∧
    (∀ i sl, (i, sl) ∈ wallStrata pts zmin zmax →
      minStratumPoints ≤ sl.length ∧
        sl = wallBand pts zmin (sliceThickness zmin zmax) i ∧ i < nSlices) ∧
    (∀ i, i < nSlices →
      minStratumPoints ≤ (wallBand pts zmin (sliceThickness zmin zmax) i).length →
      (i, wallBand pts zmin (sliceThickness zmin zmax) i) ∈ wallStrata pts zmin zmax) := by
  refine ⟨List.mem_cons_self _ _, ?_, ?_⟩
  · intro i sl hmem
    rw [wallStrata, List.mem_filterMap] at hmem
    obtain ⟨a, ha, hfa⟩ := hmem
    by_cases hlen : minStratumPoints ≤ (wallBand pts zmin (sliceThickness zmin zmax) a).length
    · rw [if_pos hlen] at hfa
      obtain ⟨rfl, rfl⟩ := Prod.mk.injEq .. ▸ (Option.some.injEq _ _ ▸ hfa :)
      exact ⟨hlen, rfl, List.mem_range.mp ha⟩
    · rw [if_neg hlen] at hfa
      exact absurd hfa (by simp)
  · intro i hi hlen
    rw [wallStrata, List.mem_filterMap]
    exact ⟨i, List.mem_range.mpr hi, if_pos hlen⟩

/-- Witness for C3 (amended) on a concrete 500-point input whose points
all lie in wall band 0: the floor stratum and wall band 0 are both
emitted. -/
theorem C3_amended_wall_only_count_filter_witness :
    ((⟨none, floorPoints (List.replicate 500 (⟨0, 0, 0⟩ : P3)) 2⟩ : Stratum) ∈
        emittedStrata (List.replicate 500 ⟨0, 0, 0⟩) 0 4) ∧
    (0, wallBand (List.replicate 500 (⟨0, 0, 0⟩ : P3)) 0 (sliceThickness 0 4) 0) ∈
        wallStrata (List.replicate 500 ⟨0, 0, 0⟩) 0 4 := by
  have h := C3_amended_wall_only_count_filter (List.replicate 500 ⟨0, 0, 0⟩) 0 4
  refine ⟨h.1, h.2.2 0 (by norm_num [nSlices]) ?_⟩
  have hb : wallBand (List.replicate 500 (⟨0, 0, 0⟩ : P3)) 0 (sliceThickness 0 4) 0 =
      List.replicate 500 ⟨0, 0, 0⟩ := by
    rw [wallBand, List.filter_eq_self]
    intro a ha
    have hae := List.eq_of_mem_replicate ha
    subst hae
    norm_num [sliceThickness]
  rw [hb, List.length_replicate]
  norm_num [minStratumPoints]

/-- C4 counterexample: on the concrete two-point input with z values 0
and 4 (so `z_min = 0`, `z_max = 4`), the point at `z = z_max = 4` is in
the input yet falls into none of the four wall bands, refuting the claim
that every input point — including one with `z = z_max` — falls into
exactly one band. -/
theorem C4_counterexample :
    axisMin P3.z [⟨0, 0, 0⟩, ⟨0, 0, 4⟩] = 0 ∧
    axisMax P3.z [⟨0, 0, 0⟩, ⟨0, 0, 4⟩] = 4 ∧
    (⟨0, 0, 4⟩ : P3) ∈ ([⟨0, 0, 0⟩, ⟨0, 0, 4⟩] : List P3) ∧
    ∀ i, i < nSlices →
      (⟨0, 0, 4⟩ : P3) ∉ wallBand [⟨0, 0, 0⟩, ⟨0, 0, 4⟩] 0 (sliceThickness 0 4) i := by
  refine ⟨by norm_num [axisMin, minOver, min_def], by norm_num [axisMax, maxOver, max_def],
    by simp, ?_⟩
  intro i hi
  rw [nSlices] at hi
  interval_cases i <;>
    simp [wallBand, List.mem_filter, sliceThickness] <;> norm_num

/-- Partition helper: for a positive band height `t`, a value in
`[lo, lo + 4t)` lies in exactly one of the four half-open bands
`[lo + i t, lo + (i+1) t)`. -/
theorem interval_partition (t z lo : ℚ) (ht : 0 < t) (h1 : lo ≤ z)
    (h2 : z < lo + 4 * t) :
    ∃! i : ℕ, i < 4 ∧
      (lo + (i : ℚ) * t ≤ z ∧ z < lo + ((i : ℚ) + 1) * t) := by
  have hu0 : 0 ≤ (z - lo) / t := div_nonneg (by linarith) ht.le
  have hu4 : (z - lo) / t < 4 := by
    rw [div_lt_iff₀ ht]
    linarith
  have hfl0 : 0 ≤ ⌊(z - lo) / t⌋ := Int.le_floor.mpr (by exact_mod_cast hu0)
  have hfl4 : ⌊(z - lo) / t⌋ < 4 := Int.floor_lt.mpr (by exact_mod_cast hu4)
  have hcast : ((⌊(z - lo) / t⌋.toNat : ℕ) : ℚ) = ((⌊(z - lo) / t⌋ : ℤ) : ℚ) := by
    exact_mod_cast Int.toNat_of_nonneg hfl0
  have hfle : ((⌊(z - lo) / t⌋ : ℤ) : ℚ) * t ≤ z - lo := by
    have hh := mul_le_mul_of_nonneg_right (Int.floor_le ((z - lo) / t)) ht.le
    rwa [div_mul_cancel₀ _ (ne_of_gt ht)] at hh
  have hflt : z - lo < (((⌊(z - lo) / t⌋ : ℤ) : ℚ) + 1) * t := by
    have hh := mul_lt_mul_of_pos_right (Int.lt_floor_add_one ((z - lo) / t)) ht
    rwa [div_mul_cancel₀ _ (ne_of_gt ht)] at hh
  refine ⟨⌊(z - lo) / t⌋.toNat, ⟨by omega, by rw [hcast]; constructor <;> linarith⟩, ?_⟩
  intro j hj
  obtain ⟨hj4, hjlo, hjhi⟩ := hj
  have h1j : ((j : ℤ)) ≤ ⌊(z - lo) / t⌋ := by
    refine Int.le_floor.mpr ?_
    rw [le_div_iff₀ ht]
    push_cast
    linarith
  have h2j : ⌊(z - lo) / t⌋ < (j : ℤ) + 1 := by
    refine Int.floor_lt.mpr ?_
    rw [div_lt_iff₀ ht]
    push_cast
    linarith
  omega

/-- C4 (amended): the wall bands are equal-height, pairwise-disjoint,
half-open intervals: every input point with z strictly below `z_max`
falls into exactly one of the four bands, while a point whose z equals
`z_max` falls into none of them. -/
theorem C4_amended_partition_below_max (pts : List P3) (zmin zmax : ℚ) (p : P3)
    (hp : p ∈ pts) :
    (zmin ≤ p.z → p.z < zmax →
      ∃! i : ℕ, i < nSlices ∧ p ∈ wallBand pts zmin (sliceThickness zmin zmax) i) ∧
    (zmin ≤ zmax → p.z = zmax →
      ∀ i, i < nSlices → p ∉ wallBand pts zmin (sliceThickness zmin zmax) i) := by
  constructor
  · intro h1 h2
    have hth : 0 < (zmax - zmin) / 4 := div_pos (by linarith) (by norm_num)
    have hspan : zmin + 4 * ((zmax - zmin) / 4) = zmax := by ring
    obtain ⟨i, ⟨hi4, hilo, hihi⟩, huniq⟩ :=
      interval_partition ((zmax - zmin) / 4) p.z zmin hth h1 (by linarith)
    refine ⟨i, ⟨by simpa [nSlices] using hi4, ?_⟩, ?_⟩
    · simp only [wallBand, sliceThickness, List.mem_filter, decide_eq_true_eq]
      exact ⟨hp, hilo, hihi⟩
    · intro j hj
      obtain ⟨hj4, hjmem⟩ := hj
      simp only [wallBand, sliceThickness, List.mem_filter, decide_eq_true_eq] at hjmem
      exact huniq j ⟨by simpa [nSlices] using hj4, hjmem.2⟩
  · intro hzle hmax i hi
    rw [wallBand, List.mem_filter, decide_eq_true_eq]
    rintro ⟨-, -, hhi⟩
    have hth0 : 0 ≤ (zmax - zmin) / 4 := div_nonneg (by linarith) (by norm_num)
    have hi3 : (i : ℚ) ≤ 3 := by
      exact_mod_cast Nat.lt_succ_iff.mp (by rw [nSlices] at hi; exact hi)
    have hmono : ((i : ℚ) + 1) * ((zmax - zmin) / 4) ≤ 4 * ((zmax - zmin) / 4) :=
      mul_le_mul_of_nonneg_right (by linarith) hth0
    have h4 : zmin + 4 * ((zmax - zmin) / 4) = zmax := by ring
    rw [sliceThickness] at hhi
    rw [hmax] at hhi
    linarith

/-- Witness for C4 (amended): on the concrete input with z values 1 and
4, the point at `z = 1 < z_max` falls into exactly one band. -/
theorem C4_amended_partition_below_max_witness :
    ∃! i : ℕ, i < nSlices ∧
      (⟨0, 0, 1⟩ : P3) ∈ wallBand [⟨0, 0, 1⟩, ⟨0, 0, 4⟩] 0 (sliceThickness 0 4) i :=
  (C4_amended_partition_below_max [⟨0, 0, 1⟩, ⟨0, 0, 4⟩] 0 4 ⟨0, 0, 1⟩
      (by simp)).1 (by norm_num) (by norm_num)

/-- Folding `min` against an accessor never exceeds the seed. -/
theorem foldl_min_le_seed (g : Pt2 → ℚ) :
    ∀ (l : List Pt2) (a : ℚ), l.foldl (fun m q => min m (g q)) a ≤ a := by
  intro l
  induction l with
  | nil => intro a; exact le_refl a
  | cons hd tl ih =>
    intro a
    simp only [List.foldl_cons]
    exact le_trans (ih _) (min_le_left _ _)

/-- Folding `max` against an accessor never falls below the seed. -/
theorem le_foldl_max_seed (g : Pt2 → ℚ) :
    ∀ (l : List Pt2) (a : ℚ), a ≤ l.foldl (fun m q => max m (g q)) a := by
  intro l
  induction l with
  | nil => intro a; exact le_refl a
  | cons hd tl ih =>
    intro a
    simp only [List.foldl_cons]
    exact le_trans (le_max_left _ _) (ih _)

/-- C2 counterexample: for the concrete two-point floor band spanning
`0.04 = 1/25` on each axis at resolution `0.02 = 1/50`, the claimed
dimension `⌈(max−min)/resolution⌉` is 2 per axis, but the grid has only
1 cell per axis: `np.arange` yields `⌈(max−min)/resolution⌉` bin edges
and `np.histogram2d` one fewer bins. -/
theorem C2_counterexample :
    minQ ([((0 : ℚ), (0 : ℚ)), (1/25, 1/25)].map Prod.fst) = 0 ∧
    maxQ ([((0 : ℚ), (0 : ℚ)), (1/25, 1/25)].map Prod.fst) = 1/25 ∧
    minQ ([((0 : ℚ), (0 : ℚ)), (1/25, 1/25)].map Prod.snd) = 0 ∧
    maxQ ([((0 : ℚ), (0 : ℚ)), (1/25, 1/25)].map Prod.snd) = 1/25 ∧
    (⌈((1/25 : ℚ) - 0) / resolution⌉).toNat = 2 ∧
    rasterDims [((0 : ℚ), (0 : ℚ)), (1/25, 1/25)] resolution = (1, 1) := by
  refine ⟨by norm_num [minQ, min_def], by norm_num [maxQ, max_def],
    by norm_num [minQ, min_def], by norm_num [maxQ, max_def], ?_, ?_⟩
  · have hc : (⌈((1/25 : ℚ) - 0) / resolution⌉ : ℤ) = 2 := by
      rw [resolution]
      norm_num
    rw [hc]
    rfl
  · have hx : minQ ([((0 : ℚ), (0 : ℚ)), (1/25, 1/25)].map Prod.fst) = 0 := by
      norm_num [minQ, min_def]
    have hX : maxQ ([((0 : ℚ), (0 : ℚ)), (1/25, 1/25)].map Prod.fst) = 1/25 := by
      norm_num [maxQ, max_def]
    have hy : minQ ([((0 : ℚ), (0 : ℚ)), (1/25, 1/25)].map Prod.snd) = 0 := by
      norm_num [minQ, min_def]
    have hY : maxQ ([((0 : ℚ), (0 : ℚ)), (1/25, 1/25)].map Prod.snd) = 1/25 := by
      norm_num [maxQ, max_def]
    have hlen : arangeLen 0 (1/25) resolution = 2 := by
      rw [arangeLen, if_pos (by norm_num [resolution])]
      have hc : (⌈((1/25 : ℚ) - 0) / resolution⌉ : ℤ) = 2 := by
        rw [resolution]
        norm_num
      rw [hc]
      rfl
    rw [rasterDims, xEdgesOf, yEdgesOf, hx, hX, hy, hY]
    rw [gridDims, arange, List.length_map, List.length_range, hlen]

/-- C2 (corrected): for every point set whose bounding box spans a
positive extent on each axis and every resolution > 0, the occupancy
grid has `⌈(max−min)/resolution⌉ − 1` cells per axis — one fewer than
the claimed `⌈(max−min)/resolution⌉`, which is the number of bin
*edges* `np.arange` produces. -/
theorem C2_amended_dims_edges_minus_one (xy : List (ℚ × ℚ)) (res : ℚ)
    (hres : 0 < res)
    (hx : minQ (xy.map Prod.fst) < maxQ (xy.map Prod.fst))
    (hy : minQ (xy.map Prod.snd) < maxQ (xy.map Prod.snd)) :
    rasterDims xy res =
      ((⌈(maxQ (xy.map Prod.fst) - minQ (xy.map Prod.fst)) / res⌉).toNat - 1,
       (⌈(maxQ (xy.map Prod.snd) - minQ (xy.map Prod.snd)) / res⌉).toNat - 1) := by
  rw [rasterDims, xEdgesOf, yEdgesOf, gridDims, gridDims, arange, arange,
    List.length_map, List.length_map, List.length_range, List.length_range,
    arangeLen, arangeLen, if_pos ⟨hres, hx⟩, if_pos ⟨hres, hy⟩]

/-- Witness for C2 (corrected) at a concrete floor band spanning
`0.1 = 1/10` per axis: 5 edges, hence 4 cells per axis. -/
theorem C2_amended_dims_edges_minus_one_witness :
    rasterDims [((0 : ℚ), (0 : ℚ)), (1/10, 1/10)] resolution =
      ((⌈(maxQ ([((0 : ℚ), (0 : ℚ)), (1/10, 1/10)].map Prod.fst) -
            minQ ([((0 : ℚ), (0 : ℚ)), (1/10, 1/10)].map Prod.fst)) / resolution⌉).toNat - 1,
       (⌈(maxQ ([((0 : ℚ), (0 : ℚ)), (1/10, 1/10)].map Prod.snd) -
            minQ ([((0 : ℚ), (0 : ℚ)), (1/10, 1/10)].map Prod.snd)) / resolution⌉).toNat - 1) :=
  C2_amended_dims_edges_minus_one _ resolution (by norm_num [resolution])
    (by norm_num [minQ, maxQ, min_def, max_def])
    (by norm_num [minQ, maxQ, min_def, max_def])

/-- C9 counterexample: applied to the degenerate (empty) Region the
measurement helper does not return the zero-valued Measurement: an empty
geometry has no numeric bounds (an empty tuple in shapely 1.x, NaNs in
2.x, modelled as `none`), so `measure_polygon` yields no numeric
triple at all. -/
theorem C9_counterexample :
    measurePolygon ([] : Region) = none ∧
      measurePolygon ([] : Region) ≠ some (0, 0, 0) :=
  ⟨rfl, by simp [measurePolygon, regionBounds]⟩

/-- C9 (amended): on every Region with at least one vertex the
measurement is total and equals `(max x − min x, max y − min y, area)`
over the Region's combined bounding box, with the polygon area summed
over components; on the empty Region no numeric Measurement (in
particular not the zero one) is produced. -/
theorem C9_amended_measure_total_nonempty (reg : Region) (h : reg.flatten ≠ []) :
    ∃ b : ℚ × ℚ × ℚ × ℚ, regionBounds reg = some b ∧
      measurePolygon reg = some (b.2.2.1 - b.1, b.2.2.2 - b.2.1, regionArea reg) ∧
      b.1 ≤ b.2.2.1 ∧ b.2.1 ≤ b.2.2.2 := by
  obtain ⟨v, vs, hfl⟩ : ∃ v vs, reg.flatten = v :: vs := by
    cases hh : reg.flatten with
    | nil => exact absurd hh h
    | cons a l => exact ⟨a, l, rfl⟩
  have hminx : vs.foldl (fun m q => min m q.1) v.1 ≤ vs.foldl (fun m q => max m q.1) v.1 :=
    le_trans (foldl_min_le_seed Prod.fst vs v.1) (le_foldl_max_seed Prod.fst vs v.1)
  have hminy : vs.foldl (fun m q => min m q.2) v.2 ≤ vs.foldl (fun m q => max m q.2) v.2 :=
    le_trans (foldl_min_le_seed Prod.snd vs v.2) (le_foldl_max_seed Prod.snd vs v.2)
  have hb : regionBounds reg =
      some (vs.foldl (fun m q => min m q.1) v.1, vs.foldl (fun m q => min m q.2) v.2,
            vs.foldl (fun m q => max m q.1) v.1, vs.foldl (fun m q => max m q.2) v.2) := by
    rw [regionBounds, hfl]
  refine ⟨_, hb, ?_, hminx, hminy⟩
  rw [measurePolygon, hb]
  dsimp only
  have hax : |vs.foldl (fun m q => max m q.1) v.1 - vs.foldl (fun m q => min m q.1) v.1| =
      vs.foldl (fun m q => max m q.1) v.1 - vs.foldl (fun m q => min m q.1) v.1 :=
    abs_of_nonneg (sub_nonneg.mpr hminx)
  have hay : |vs.foldl (fun m q => max m q.2) v.2 - vs.foldl (fun m q => min m q.2) v.2| =
      vs.foldl (fun m q => max m q.2) v.2 - vs.foldl (fun m q => min m q.2) v.2 :=
    abs_of_nonneg (sub_nonneg.mpr hminy)
  rw [hax, hay]

/-- Witness for C9 (amended) on a concrete unit-square Region. -/
theorem C9_amended_measure_total_nonempty_witness :
    ∃ b : ℚ × ℚ × ℚ × ℚ,
      regionBounds [[((0 : ℚ), (0 : ℚ)), (1, 0), (1, 1), (0, 1)]] = some b ∧
      measurePolygon [[((0 : ℚ), (0 : ℚ)), (1, 0), (1, 1), (0, 1)]] =
        some (b.2.2.1 - b.1, b.2.2.2 - b.2.1,
          regionArea [[((0 : ℚ), (0 : ℚ)), (1, 0), (1, 1), (0, 1)]]) ∧
      b.1 ≤ b.2.2.1 ∧ b.2.1 ≤ b.2.2.2 :=
  C9_amended_measure_total_nonempty _ (by simp)

/-- C6: when contour extraction yields zero valid polygons for the floor
stratum, the floor Region becomes the convex hull of the floor selection
recomputed at the looser percentile 5 (same 0.05 margin); a wall band
with zero valid polygons is excluded from the wall-slice output with no
Region; in both cases a value is produced, so the pipeline does not
abort. -/
theorem C6_zero_polygon_fallback (pts : List P3) (zmin zmax : ℚ)
    (floorContours : List Ring) (contoursOf : ℕ → List Ring) :
    (validPolygons floorContours = [] →
      floorRegionOf floorContours pts = [convexHullQ (xyOf (floorPoints pts 5))]) ∧
    (validPolygons floorContours ≠ [] →
      floorRegionOf floorContours pts = unionRegion (validPolygons floorContours)) ∧
    (∀ i r sl, (i, r, sl) ∈ wallSlices pts zmin zmax contoursOf →
      validPolygons (contoursOf i) ≠ [] ∧
        r = unionRegion (validPolygons (contoursOf i)) ∧
        (i, sl) ∈ wallStrata pts zmin zmax) ∧
    (∀ i, validPolygons (contoursOf i) = [] →
      ∀ r sl, (i, r, sl) ∉ wallSlices pts zmin zmax contoursOf) := by
  refine ⟨?_, ?_, ?_, ?_⟩
  · intro hempty
    simp only [floorRegionOf]
    rw [if_pos hempty]
  · intro hne
    simp only [floorRegionOf]
    rw [if_neg hne]
  · intro i r sl hmem
    rw [wallSlices, List.mem_filterMap] at hmem
    obtain ⟨⟨a1, a2⟩, ha, hfa⟩ := hmem
    dsimp only at hfa
    by_cases hpoly : validPolygons (contoursOf a1) = []
    · rw [if_pos hpoly] at hfa
      exact absurd hfa (by simp)
    · rw [if_neg hpoly] at hfa
      simp only [Option.some.injEq, Prod.mk.injEq] at hfa
      obtain ⟨rfl, rfl, rfl⟩ := hfa
      exact ⟨hpoly, rfl, ha⟩
  · intro i hempty r sl hmem
    rw [wallSlices, List.mem_filterMap] at hmem
    obtain ⟨⟨a1, a2⟩, ha, hfa⟩ := hmem
    dsimp only at hfa
    by_cases hpoly : validPolygons (contoursOf a1) = []
    · rw [if_pos hpoly] at hfa
      exact absurd hfa (by simp)
    · rw [if_neg hpoly] at hfa
      simp only [Option.some.injEq, Prod.mk.injEq] at hfa
      obtain ⟨rfl, -, -⟩ := hfa
      exact hpoly hempty

/-- Witness for C6 on a concrete one-point cloud with no contours: the
floor Region is the convex-hull fallback at percentile 5. -/
theorem C6_zero_polygon_fallback_witness :
    floorRegionOf [] [(⟨0, 0, 0⟩ : P3)] =
      [convexHullQ (xyOf (floorPoints [(⟨0, 0, 0⟩ : P3)] 5))] :=
  (C6_zero_polygon_fallback [⟨0, 0, 0⟩] 0 0 [] (fun _ => [])).1 rfl

/-- A value strictly below every bin edge falls in no bin. -/
theorem binIndexOf_none_low (v : ℚ) :
    ∀ (edges : List ℚ), (∀ e ∈ edges, v < e) → binIndexOf v edges = none
  | [], _ => rfl
  | [_], _ => rfl
  | e0 :: e1 :: rest, h => by
    rw [binIndexOf]
    rw [if_pos (h e0 (List.mem_cons_self _ _))]

/-- A value strictly above every bin edge falls in no bin. -/
theorem binIndexOf_none_high (v : ℚ) :
    ∀ (edges : List ℚ), (∀ e ∈ edges, e < v) → binIndexOf v edges = none
  | [], _ => rfl
  | [_], _ => rfl
  | e0 :: e1 :: rest, h => by
    have he0 := h e0 (List.mem_cons_self _ _)
    have he1 := h e1 (List.mem_cons_of_mem _ (List.mem_cons_self _ _))
    rw [binIndexOf]
    rw [if_neg (not_lt.mpr he0.le), if_neg (not_lt.mpr he1.le)]
    by_cases hr : rest = []
    · rw [if_pos hr, if_neg (ne_of_gt he1)]
    · rw [if_neg hr,
        binIndexOf_none_high v (e1 :: rest) (fun e he => h e (List.mem_cons_of_mem _ he))]
      rfl

/-- Every element of `np.arange(lo, hi, step)` lies in `[lo, hi)`. -/
theorem arange_mem_bounds (lo hi step : ℚ) (hs : 0 < step) :
    ∀ x ∈ arange lo hi step, lo ≤ x ∧ x < hi := by
  intro x hx
  rw [arange, List.mem_map] at hx
  obtain ⟨i, hmem, rfl⟩ := hx
  rw [List.mem_range, arangeLen] at hmem
  by_cases hcond : 0 < step ∧ lo < hi
  · rw [if_pos hcond] at hmem
    have hi1 : ((i : ℤ)) < ⌈(hi - lo) / step⌉ := Int.lt_toNat.mp hmem
    have hi2 : ((i : ℚ)) + 1 ≤ (⌈(hi - lo) / step⌉ : ℚ) := by exact_mod_cast hi1
    have hceil : ((⌈(hi - lo) / step⌉ : ℤ) : ℚ) < (hi - lo) / step + 1 :=
      Int.ceil_lt_add_one _
    have hiq : (i : ℚ) < (hi - lo) / step := by linarith
    have hnn : 0 ≤ (i : ℚ) * step := mul_nonneg (by positivity) hs.le
    have hlt : (i : ℚ) * step < hi - lo := by
      rw [← lt_div_iff₀ hs]
      exact hiq
    exact ⟨by linarith, by linarith⟩
  · rw [if_neg hcond] at hmem
    exact absurd hmem (by omega)

/-- A grid index within the cell dimensions of `np.arange(lo, hi, res)`
maps to a world coordinate at most one resolution cell beyond `hi`. -/
theorem world_coord_le (lo hi res t : ℚ) (hres : 0 < res) (ht0 : 0 ≤ t)
    (ht : t ≤ ((gridDims (arange lo hi res) : ℕ) : ℚ) - 1) :
    t * res + lo ≤ hi + res := by
  rw [gridDims, arange, List.length_map, List.length_range] at ht
  by_cases hcond : 0 < res ∧ lo < hi
  · rw [arangeLen, if_pos hcond] at ht
    have hpos : (0 : ℚ) < (hi - lo) / res := div_pos (by linarith [hcond.2]) hres
    have hc1 : 1 ≤ ⌈(hi - lo) / res⌉ := Int.ceil_pos.mpr hpos
    have htn : (1 : ℕ) ≤ (⌈(hi - lo) / res⌉).toNat := by omega
    have hKc : (((⌈(hi - lo) / res⌉).toNat : ℕ) : ℚ) = ((⌈(hi - lo) / res⌉ : ℤ) : ℚ) := by
      exact_mod_cast Int.toNat_of_nonneg (by omega)
    rw [Nat.cast_sub htn, hKc, Nat.cast_one] at ht
    have hceil : ((⌈(hi - lo) / res⌉ : ℤ) : ℚ) < (hi - lo) / res + 1 :=
      Int.ceil_lt_add_one _
    have hdm : ((hi - lo) / res) * res = hi - lo := div_mul_cancel₀ _ (ne_of_gt hres)
    nlinarith [mul_le_mul_of_nonneg_right ht hres.le,
      mul_lt_mul_of_pos_right hceil hres]
  · rw [arangeLen, if_neg hcond] at ht
    norm_num at ht
    linarith

/-- C10: the wall grids are built on the bin edges computed once from
the floor band's XY bounding box (lines 86–89, reused at lines 136–141):
a wall point whose X (or Y) coordinate falls outside the floor band's
bounding interval is counted in no grid cell — wall structure there is
silently dropped — and every world-mapped wall contour vertex whose grid
indices lie within the grid dimensions maps into the floor band's
bounding rectangle extended by one resolution cell. -/
theorem C10_wall_grid_reuses_floor_bbox (fxy : List (ℚ × ℚ)) (res : ℚ)
    (hres : 0 < res) :
    (∀ q : Pt2,
      q.1 < minQ (fxy.map Prod.fst) ∨ maxQ (fxy.map Prod.fst) < q.1 →
      binIndexOf q.1 (xEdgesOf fxy res) = none ∧
      ∀ i j, ¬(binIndexOf q.1 (xEdgesOf fxy res) = some i ∧
               binIndexOf q.2 (yEdgesOf fxy res) = some j)) ∧
    (∀ q : Pt2,
      q.2 < minQ (fxy.map Prod.snd) ∨ maxQ (fxy.map Prod.snd) < q.2 →
      binIndexOf q.2 (yEdgesOf fxy res) = none ∧
      ∀ i j, ¬(binIndexOf q.1 (xEdgesOf fxy res) = some i ∧
               binIndexOf q.2 (yEdgesOf fxy res) = some j)) ∧
    (∀ c : Ring,
      (∀ v ∈ c, 0 ≤ v.1 ∧ v.1 ≤ ((gridDims (yEdgesOf fxy res) : ℕ) : ℚ) - 1 ∧
                0 ≤ v.2 ∧ v.2 ≤ ((gridDims (xEdgesOf fxy res) : ℕ) : ℚ) - 1) →
      ∀ w ∈ contourToWorld res (minQ (fxy.map Prod.fst)) (minQ (fxy.map Prod.snd)) c,
        minQ (fxy.map Prod.fst) ≤ w.1 ∧ w.1 ≤ maxQ (fxy.map Prod.fst) + res ∧
        minQ (fxy.map Prod.snd) ≤ w.2 ∧ w.2 ≤ maxQ (fxy.map Prod.snd) + res) := by
  refine ⟨?_, ?_, ?_⟩
  · intro q hout
    have hnone : binIndexOf q.1 (xEdgesOf fxy res) = none := by
      rcases hout with hlt | hgt
      · refine binIndexOf_none_low q.1 _ ?_
        intro e he
        rw [xEdgesOf] at he
        exact lt_of_lt_of_le hlt (arange_mem_bounds _ _ _ hres e he).1
      · refine binIndexOf_none_high q.1 _ ?_
        intro e he
        rw [xEdgesOf] at he
        exact lt_trans (arange_mem_bounds _ _ _ hres e he).2 hgt
    refine ⟨hnone, ?_⟩
    intro i j hij
    rw [hnone] at hij
    exact Option.noConfusion hij.1
  · intro q hout
    have hnone : binIndexOf q.2 (yEdgesOf fxy res) = none := by
      rcases hout with hlt | hgt
      · refine binIndexOf_none_low q.2 _ ?_
        intro e he
        rw [yEdgesOf] at he
        exact lt_of_lt_of_le hlt (arange_mem_bounds _ _ _ hres e he).1
      · refine binIndexOf_none_high q.2 _ ?_
        intro e he
        rw [yEdgesOf] at he
        exact lt_trans (arange_mem_bounds _ _ _ hres e he).2 hgt
    refine ⟨hnone, ?_⟩
    intro i j hij
    rw [hnone] at hij
    exact Option.noConfusion hij.2
  · intro c hc w hw
    rw [contourToWorld, List.mem_map] at hw
    obtain ⟨v, hvmem, rfl⟩ := hw
    obtain ⟨h1, h2, h3, h4⟩ := hc v hvmem
    rw [xEdgesOf] at h4
    rw [yEdgesOf] at h2
    have hx0 : 0 ≤ v.2 * res := mul_nonneg h3 hres.le
    have hy0 : 0 ≤ v.1 * res := mul_nonneg h1 hres.le
    exact ⟨by dsimp only; linarith,
           by dsimp only; exact world_coord_le _ _ _ _ hres h3 h4,
           by dsimp only; linarith,
           by dsimp only; exact world_coord_le _ _ _ _ hres h1 h2⟩

/-- Witness for C10: with the concrete floor band spanning
`[0, 1/10] × [0, 1/10]`, the wall point at `x = 1` (outside the floor
bounding box) is counted in no grid cell. -/
theorem C10_wall_grid_reuses_floor_bbox_witness :
    binIndexOf (1 : ℚ) (xEdgesOf [((0 : ℚ), (0 : ℚ)), (1/10, 1/10)] resolution) = none ∧
    ∀ i j, ¬(binIndexOf (1 : ℚ)
        (xEdgesOf [((0 : ℚ), (0 : ℚ)), (1/10, 1/10)] resolution) = some i ∧
      binIndexOf (1 : ℚ)
        (yEdgesOf [((0 : ℚ), (0 : ℚ)), (1/10, 1/10)] resolution) = some j) :=
  (C10_wall_grid_reuses_floor_bbox [((0 : ℚ), (0 : ℚ)), (1/10, 1/10)] resolution
      (by norm_num [resolution])).1 (1, 1)
    (Or.inr (by norm_num [maxQ, max_def]))

/-- A self-touching contour ring made of two counter-clockwise
triangular lobes (area `1/25` each) sharing the single vertex `(0, 0)`:
its raw shoelace area is `2/25`. -/
def ringTwoLobes : Ring :=
  [(0, 0), (2/5, 0), (0, 1/5), (0, 0), (-2/5, 0), (0, -1/5)]

/-- The first lobe of `ringTwoLobes`. -/
def lobeA : Ring := [(0, 0), (2/5, 0), (0, 1/5)]

/-- The second lobe of `ringTwoLobes`. -/
def lobeB : Ring := [(0, 0), (-2/5, 0), (0, -1/5)]

/-- C5 counterexample: the ring `ringTwoLobes` passes the area filter
(raw shoelace area `2/25 > 1/20 = min_polygon_area`, the filter runs
before the repair), and the zero-buffer repair then splits it at its
repeated vertex into its two lobes of area `1/25 ≤ 1/20` each — so the
resulting Region contains a component polygon whose area is below
`min_polygon_area`, refuting the claim. -/
theorem C5_counterexample :
    minPolygonArea < ringArea ringTwoLobes ∧
    unionRegion (validPolygons [ringTwoLobes]) = [lobeA, lobeB] ∧
    lobeA ∈ unionRegion (validPolygons [ringTwoLobes]) ∧
    ringArea lobeA ≤ minPolygonArea := by
  have harea : ringArea ringTwoLobes = 2/25 := by
    have h : shoelaceSum ringTwoLobes = 4/25 := by
      norm_num [ringTwoLobes, shoelaceSum, ringEdges, cross2]
    rw [ringArea, h, abs_of_nonneg (by norm_num : (0 : ℚ) ≤ 4/25)]
    norm_num
  have hareaA : ringArea lobeA = 1/25 := by
    have h : shoelaceSum lobeA = 2/25 := by
      norm_num [lobeA, shoelaceSum, ringEdges, cross2]
    rw [ringArea, h, abs_of_nonneg (by norm_num : (0 : ℚ) ≤ 2/25)]
    norm_num
  have hareaB : ringArea lobeB = 1/25 := by
    have h : shoelaceSum lobeB = 2/25 := by
      norm_num [lobeB, shoelaceSum, ringEdges, cross2]
    rw [ringArea, h, abs_of_nonneg (by norm_num : (0 : ℚ) ≤ 2/25)]
    norm_num
  have hip : idxPairs 6 =
      [(0, 1), (0, 2), (0, 3), (0, 4), (0, 5), (1, 2), (1, 3), (1, 4), (1, 5),
       (2, 3), (2, 4), (2, 5), (3, 4), (3, 5), (4, 5)] := by decide
  have hfr : firstRepeat ringTwoLobes = some (0, 3) := by
    rw [firstRepeat, show ringTwoLobes.length = 6 from rfl, hip]
    rw [List.find?_cons_of_neg _ (by norm_num [ringTwoLobes, List.getD, Prod.ext_iff]),
        List.find?_cons_of_neg _ (by norm_num [ringTwoLobes, List.getD, Prod.ext_iff]),
        List.find?_cons_of_pos _ (by norm_num [ringTwoLobes, List.getD, Prod.ext_iff])]
  have hsplit : splitRing ringTwoLobes 0 3 = (lobeA, lobeB) := rfl
  have hbuf : buffer0 ringTwoLobes = [lobeA, lobeB] := by
    rw [buffer0, hfr]
    dsimp only
    rw [hsplit]
    dsimp only
    rw [List.filter_cons_of_pos (by rw [hareaA]; norm_num),
        List.filter_cons_of_pos (by rw [hareaB]; norm_num), List.filter_nil]
  have hvp : validPolygons [ringTwoLobes] = [lobeA, lobeB] := by
    rw [validPolygons]
    rw [List.filter_cons_of_pos (by rw [harea]; norm_num [minPolygonArea])]
    rw [List.filter_nil]
    rw [List.flatMap_cons, List.flatMap_nil, hbuf, List.append_nil]
  refine ⟨by rw [harea]; norm_num [minPolygonArea], ?_, ?_, ?_⟩
  · rw [unionRegion, hvp]
  · rw [unionRegion, hvp]
    exact List.mem_cons_self _ _
  · rw [hareaA]
    norm_num [minPolygonArea]

/-- C5 (amended): the `min_polygon_area` filter tests the raw shoelace
area of each contour ring before the zero-buffer repair, so every
component of a stratum's Region originates, via the repair, from a ring
whose pre-repair area exceeds `min_polygon_area`, and every component
has positive area; but a component's own area may be at most
`min_polygon_area` when the repair splits a filtered self-touching ring
into smaller lobes. -/
theorem C5_amended_filter_precedes_repair (contours : List Ring) (c : Ring)
    (hc : c ∈ unionRegion (validPolygons contours)) :
    ∃ r ∈ contours, minPolygonArea < ringArea r ∧ c ∈ buffer0 r ∧
      0 < ringArea c := by
  rw [unionRegion, validPolygons, List.mem_flatMap] at hc
  obtain ⟨r, hr, hcr⟩ := hc
  rw [List.mem_filter, decide_eq_true_eq] at hr
  refine ⟨r, hr.1, hr.2, hcr, ?_⟩
  rw [buffer0] at hcr
  cases hfr : firstRepeat r with
  | none =>
    rw [hfr] at hcr
    simp only [List.mem_singleton] at hcr
    subst hcr
    exact lt_trans (by norm_num [minPolygonArea]) hr.2
  | some ij =>
    rw [hfr] at hcr
    simp only [List.mem_filter, decide_eq_true_eq] at hcr
    exact hcr.2

/-- Witness for C5 (amended) at a concrete valid triangular contour of
area `1/2`, which the repair leaves untouched. -/
theorem C5_amended_filter_precedes_repair_witness :
    ∃ r ∈ [[((0 : ℚ), (0 : ℚ)), (1, 0), (0, 1)]],
      minPolygonArea < ringArea r ∧
      [((0 : ℚ), (0 : ℚ)), (1, 0), (0, 1)] ∈ buffer0 r ∧
      0 < ringArea [((0 : ℚ), (0 : ℚ)), (1, 0), (0, 1)] := by
  refine C5_amended_filter_precedes_repair _ _ ?_
  have hip : idxPairs 3 = [(0, 1), (0, 2), (1, 2)] := by decide
  have hfr : firstRepeat [((0 : ℚ), (0 : ℚ)), (1, 0), (0, 1)] = none := by
    rw [firstRepeat, show ([((0 : ℚ), (0 : ℚ)), (1, 0), (0, 1)]).length = 3 from rfl,
      hip]
    rw [List.find?_cons_of_neg _ (by norm_num [List.getD, Prod.ext_iff]),
        List.find?_cons_of_neg _ (by norm_num [List.getD, Prod.ext_iff]),
        List.find?_cons_of_neg _ (by norm_num [List.getD, Prod.ext_iff])]
    rfl
  have hbuf : buffer0 [((0 : ℚ), (0 : ℚ)), (1, 0), (0, 1)] =
      [[((0 : ℚ), (0 : ℚ)), (1, 0), (0, 1)]] := by
    rw [buffer0, hfr]
  have hvp : validPolygons [[((0 : ℚ), (0 : ℚ)), (1, 0), (0, 1)]] =
      [[((0 : ℚ), (0 : ℚ)), (1, 0), (0, 1)]] := by
    rw [validPolygons]
    rw [List.filter_cons_of_pos (by
      have h : shoelaceSum [((0 : ℚ), (0 : ℚ)), (1, 0), (0, 1)] = 1 := by
        norm_num [shoelaceSum, ringEdges, cross2]
      rw [ringArea, h, abs_of_nonneg (by norm_num : (0 : ℚ) ≤ 1)]
      norm_num [minPolygonArea])]
    rw [List.filter_nil, List.flatMap_cons, List.flatMap_nil, hbuf, List.append_nil]
  rw [unionRegion, hvp]
  exact List.mem_cons_self _ _

end FloorPlan
